import Mathlib

/-!
Verification of the CAN reverse-engineering tool
(`can_reverse_from_dump_debug.py`): a shallow embedding of its frame
decoder, per-address byte model, calibration/monitoring passes, variance
accumulator and CLI window selection, together with theorems settling the
specification's claims about them.

Conventions of the embedding:
* Python machine values become `Nat`; candump timestamps become exact
  rationals (`ℚ`) — no claim below depends on floating-point rounding,
  only on success/failure of conversion and on order comparisons.
* Fallible Python code (list indexing that can raise `IndexError`,
  conversions that can raise `ValueError`) is embedded in `Option`:
  `none` means the Python run dies with an uncaught exception.
* The two `candump_patterns` regexes are compiled by hand into
  backtracking-free matchers.  This is sound because in both patterns
  every quantified character class is disjoint from the character that
  must follow it (digits/dots before `)`, hex before whitespace,
  whitespace before `[`, …), so greedy maximal munch is equivalent to
  the backtracking semantics of `re.search`.
-/

namespace CanDump

/-! ### Character classes used by the regexes (`re` semantics, ASCII) -/

/-- Python `\s` on ASCII input: space, tab, newline, CR, FF, VT. -/
def pySpace (c : Char) : Bool :=
  c = ' ' || c = '\t' || c = '\n' || c = '\r' || c = '\x0b' || c = '\x0c'

/-- Regex `\d`. -/
def isDigitC (c : Char) : Bool := '0' ≤ c && c ≤ '9'

/-- Regex `[0-9A-Fa-f]`. -/
def isHexC (c : Char) : Bool :=
  isDigitC c || ('a' ≤ c && c ≤ 'f') || ('A' ≤ c && c ≤ 'F')

/-- Regex `[\d\.]` (the timestamp class of the first pattern). -/
def isTsC (c : Char) : Bool := isDigitC c || c = '.'

/-- Python `str.strip()` — remove whitespace from both ends. -/
def pyStrip (s : List Char) : List Char :=
  ((s.dropWhile pySpace).reverse.dropWhile pySpace).reverse

/-- One step of `str.split()`: accumulate the current token. -/
def pySplitGo (cur : List Char) : List Char → List (List Char)
  | [] => if cur.isEmpty then [] else [cur.reverse]
  | c :: rest =>
    if pySpace c then
      if cur.isEmpty then pySplitGo [] rest else cur.reverse :: pySplitGo [] rest
    else pySplitGo (c :: cur) rest

/-- Python `str.split()` with no argument: split on whitespace runs. -/
def pySplit (s : List Char) : List (List Char) := pySplitGo [] s

/-! ### Numeric conversions -/

/-- Value of one hex digit (callers guarantee `isHexC`). -/
def hexDigitVal (c : Char) : Nat :=
  if isDigitC c then c.toNat - '0'.toNat
  else if 'a' ≤ c && c ≤ 'f' then c.toNat - 'a'.toNat + 10
  else if 'A' ≤ c && c ≤ 'F' then c.toNat - 'A'.toNat + 10
  else 0

/-- Python `int(s, 16)` on a nonempty hex string. -/
def hexToNat (s : List Char) : Nat :=
  s.foldl (fun acc c => 16 * acc + hexDigitVal c) 0

/-- Python `int(s)` on a nonempty decimal string. -/
def decToNat (s : List Char) : Nat :=
  s.foldl (fun acc c => 10 * acc + (c.toNat - '0'.toNat)) 0

/-- Python `float(s)` applied to a string drawn from the class `[\d\.]+`:
it succeeds iff the string has at most one dot and at least one digit
(`float("1.2.3")` and `float(".")` raise `ValueError`); the value is kept
as an exact rational. -/
def pyFloatDD (s : List Char) : Option ℚ :=
  if s.count '.' ≤ 1 && s.any isDigitC then
    let intPart := s.takeWhile (· != '.')
    let fracPart := (s.dropWhile (· != '.')).drop 1
    some ((decToNat intPart : ℚ) + (decToNat fracPart : ℚ) / (10 : ℚ) ^ fracPart.length)
  else none

/-! ### The two `candump_patterns` regexes -/

/-- Greedy match of the data group `(?:[0-9A-Fa-f]{2}\s*)+`, structural
on a fuel: every iteration consumes at least two characters, so any fuel
of at least the input length makes the `0` case unreachable. -/
def takeDataGroupF : Nat → List Char → List Char × List Char
  | 0, l => ([], l)
  | fuel + 1, a :: b :: rest =>
    if isHexC a && isHexC b then
      let sp := rest.takeWhile pySpace
      let r2 := rest.dropWhile pySpace
      let res := takeDataGroupF fuel r2
      (a :: b :: (sp ++ res.1), res.2)
    else ([], a :: b :: rest)
  | _ + 1, l => ([], l)

/-- Greedy match of the data group `(?:[0-9A-Fa-f]{2}\s*)+`: returns the
matched text (the regex group, including interior and trailing
whitespace) and the rest of the input. -/
def takeDataGroup (l : List Char) : List Char × List Char :=
  takeDataGroupF l.length l

/-- Shared tail of both patterns:
`(?P<id>[0-9A-Fa-f]+)\s+\[(?P<dlc>\d+)\]\s+(?P<data>(?:[0-9A-Fa-f]{2}\s*)+)`.
Returns the `id`, `dlc` and `data` groups. -/
def matchIdTail (l : List Char) : Option (List Char × List Char × List Char) :=
  let idg := l.takeWhile isHexC
  let r1 := l.dropWhile isHexC
  if idg.isEmpty then none else
  let sp1 := r1.takeWhile pySpace
  let r2 := r1.dropWhile pySpace
  if sp1.isEmpty then none else
  match r2 with
  | '[' :: r3 =>
    let dlcg := r3.takeWhile isDigitC
    let r4 := r3.dropWhile isDigitC
    if dlcg.isEmpty then none else
    match r4 with
    | ']' :: r5 =>
      let sp2 := r5.takeWhile pySpace
      let r6 := r5.dropWhile pySpace
      if sp2.isEmpty then none else
      let dat := takeDataGroup r6
      if dat.1.isEmpty then none else some (idg, dlcg, dat.1)
    | _ => none
  | _ => none

/-- Attempt of pattern 1,
`\((?P<ts>[\d\.]+)\)\s+can\d+\s+<id-tail>`, anchored at the head of `l`.
Returns the `ts`, `id`, `dlc`, `data` groups. -/
def matchP1At (l : List Char) : Option (List Char × List Char × List Char × List Char) :=
  match l with
  | '(' :: r0 =>
    let tsg := r0.takeWhile isTsC
    let r1 := r0.dropWhile isTsC
    if tsg.isEmpty then none else
    match r1 with
    | ')' :: r2 =>
      let sp1 := r2.takeWhile pySpace
      let r3 := r2.dropWhile pySpace
      if sp1.isEmpty then none else
      match r3 with
      | 'c' :: 'a' :: 'n' :: r4 =>
        let ds := r4.takeWhile isDigitC
        let r5 := r4.dropWhile isDigitC
        if ds.isEmpty then none else
        let sp2 := r5.takeWhile pySpace
        let r6 := r5.dropWhile pySpace
        if sp2.isEmpty then none else
        (matchIdTail r6).map fun g => (tsg, g)
      | _ => none
    | _ => none
  | _ => none

/-- Attempt of pattern 2, `(?:can\d+\s+)<id-tail>` — note that the
`busN` token is NOT optional in the source regex — anchored at the head
of `l`. -/
def matchP2At (l : List Char) : Option (List Char × List Char × List Char) :=
  match l with
  | 'c' :: 'a' :: 'n' :: r0 =>
    let ds := r0.takeWhile isDigitC
    let r1 := r0.dropWhile isDigitC
    if ds.isEmpty then none else
    let sp := r1.takeWhile pySpace
    let r2 := r1.dropWhile pySpace
    if sp.isEmpty then none else
    matchIdTail r2
  | _ => none

/-- Python `re.search` for pattern 1: try every start position, leftmost first. -/
def searchP1 : List Char → Option (List Char × List Char × List Char × List Char)
  | [] => none
  | c :: rest =>
    match matchP1At (c :: rest) with
    | some g => some g
    | none => searchP1 rest

/-- Python `re.search` for pattern 2. -/
def searchP2 : List Char → Option (List Char × List Char × List Char)
  | [] => none
  | c :: rest =>
    match matchP2At (c :: rest) with
    | some g => some g
    | none => searchP2 rest

/-! ### Frames and the per-line decoder (`parse_candump`, lines 36–75) -/

/-- A decoded CAN frame (`Frame` dataclass, lines 29–34). -/
structure Frame where
  ts : Option ℚ
  can_id : Nat
  dlc : Nat
  data : List Nat
deriving DecidableEq, Repr

/-- Outcome of `parse_candump`'s loop body on one line. -/
inductive LineResult where
  /-- The line decoded to a frame (appended to `frames`). -/
  | frame (f : Frame)
  /-- Unparsed or conversion failure inside the `try` — `bad_lines += 1`. -/
  | bad
  /-- Blank after `strip()` — silently skipped. -/
  | blank
  /-- An uncaught exception: the decoding pass aborts. -/
  | crash
deriving DecidableEq, Repr

/-- Lines 58–66: the conversions inside the `try` block.  `int` on the
regex-shaped `id`/`dlc` groups cannot fail; `bytes(...)` raises
`ValueError` (caught → `bad`) iff a whitespace-separated token of the
data group denotes a value ≥ 256; the payload is truncated to `dlc`. -/
def convertGroups (ts : Option ℚ) (idg dlcg datg : List Char) : LineResult :=
  let can_id := hexToNat idg
  let dlc := decToNat dlcg
  let vals := (pySplit datg).map hexToNat
  if vals.all (fun v => decide (v < 256)) then
    .frame ⟨ts, can_id, dlc, vals.take dlc⟩
  else .bad

/-- Loop body of `parse_candump` (lines 43–66) on one raw line.  The
timestamp conversion `float(m.group("ts"))` on line 56 sits OUTSIDE the
`try` block, so its `ValueError` is an uncaught crash. -/
def parse_line (raw : List Char) : LineResult :=
  let line := pyStrip raw
  if line.isEmpty then .blank
  else
    match searchP1 line with
    | some (tsg, idg, dlcg, datg) =>
      match pyFloatDD tsg with
      | some t => convertGroups (some t) idg dlcg datg
      | none => .crash
    | none =>
      match searchP2 line with
      | some (idg, dlcg, datg) => convertGroups none idg dlcg datg
      | none => .bad

/-- The whole decoding pass of `parse_candump` over the file's lines,
accumulating frames and the bad-line counter; `none` when a line raises
an uncaught exception. -/
def parse_candump_go : Option Nat → List Frame → Nat → List (List Char) → Option (List Frame × Nat)
  | _, frames, bad, [] => some (frames, bad)
  | limit, frames, bad, l :: rest =>
    if (match limit with | some n => decide (n ≤ frames.length) | none => false) then
      some (frames, bad)
    else
      match parse_line l with
      | .blank => parse_candump_go limit frames bad rest
      | .bad => parse_candump_go limit frames (bad + 1) rest
      | .frame f => parse_candump_go limit (frames ++ [f]) bad rest
      | .crash => none

/-- The whole of `parse_candump` on a list of lines with no `--limit`. -/
def parse_dump (lines : List (List Char)) : Option (List Frame × Nat) :=
  parse_candump_go none [] 0 lines

/-! ### Per-address byte model (`ByteState`/`IdState`, lines 79–115) -/

/-- The `ByteState` dataclass: learned value and disqualification flag of one
byte position. -/
structure ByteState where
  value : Nat
  disqualified : Bool
deriving DecidableEq, Repr

/-- The `IdState` dataclass: the per-address model.  `bytes` is created as a
list of 8 default `ByteState`s. -/
structure IdState where
  can_id : Nat
  seen_len : Nat
  fully_disqualified : Bool
  bytes : List ByteState
deriving DecidableEq, Repr

/-- A freshly created `IdState(can_id)`. -/
def freshId (cid : Nat) : IdState :=
  ⟨cid, 0, false, List.replicate 8 ⟨0, false⟩⟩

/-- Body of the calibration loop for one byte position (lines 97–103):
skip if disqualified; seed when `seen_len <= 1 and value == 0`; else
disqualify on mismatch. -/
def stepByte (sl : Nat) (bs : ByteState) (b : Nat) : ByteState :=
  if bs.disqualified then bs
  else if sl ≤ 1 && bs.value == 0 then { bs with value := b }
  else if b ≠ bs.value then { bs with disqualified := true }
  else bs

/-- The loop `for i, b in enumerate(data)` of `ingest_for_calibration`
(lines 95–103): each iteration reads and writes only `self.bytes[i]`, so
it walks the two lists in lockstep; `none` models the `IndexError`
raised when `data` is longer than the 8-entry `bytes` list. -/
def ingest_go (sl : Nat) : List ByteState → List Nat → Option (List ByteState)
  | bytes, [] => some bytes
  | [], _ :: _ => none
  | bs :: bytes, b :: data => (ingest_go sl bytes data).map (stepByte sl bs b :: ·)

/-- Line 104, `all(self.bytes[i].disqualified for i in range(n))`: the
generator short-circuits at the first `False` and raises `IndexError`
(= `none`) only if it runs past the end while still `True`. -/
def allDisq : List ByteState → Nat → Option Bool
  | _, 0 => some true
  | [], _ + 1 => none
  | bs :: rest, n + 1 => if bs.disqualified then allDisq rest n else some false

/-- Source `IdState.ingest_for_calibration` (lines 91–104): empty payloads
return immediately; otherwise `seen_len` is raised to the payload length
BEFORE the per-byte loop, and `fully_disqualified` is recomputed at the
end. -/
def ingest_for_calibration (st : IdState) (data : List Nat) : Option IdState :=
  match data with
  | [] => some st
  | _ :: _ =>
    let sl := max st.seen_len data.length
    match ingest_go sl st.bytes data with
    | none => none
    | some bytes' =>
      match allDisq bytes' sl with
      | none => none
      | some fd => some { st with seen_len := sl, bytes := bytes', fully_disqualified := fd }

/-- The loop of `IdState.diff_and_report` (lines 108–114), carrying the
absolute byte index `i`: break once `i >= seen_len`; on a changed,
non-disqualified byte emit `(i, old, new)` and slide the stored value. -/
def diff_go (sl : Nat) : Nat → List ByteState → List Nat → Option (List (Nat × Nat × Nat) × List ByteState)
  | _, bytes, [] => some ([], bytes)
  | i, bytes, b :: data =>
    if sl ≤ i then some ([], bytes)
    else
      match bytes with
      | [] => none
      | bs :: rest =>
        match diff_go sl (i + 1) rest data with
        | none => none
        | some (out, rest') =>
          if bs.disqualified = false ∧ b ≠ bs.value then
            some ((i, bs.value, b) :: out, ⟨b, bs.disqualified⟩ :: rest')
          else some (out, bs :: rest')

/-- Source `IdState.diff_and_report` (lines 106–115). -/
def diff_and_report (st : IdState) (data : List Nat) : Option (List (Nat × Nat × Nat) × IdState) :=
  (diff_go st.seen_len 0 st.bytes data).map fun p => (p.1, { st with bytes := p.2 })

/-! ### Model registry and the calibration / monitoring passes
(`ReverseTool`, lines 117–171) -/

/-- The dict `ReverseTool.states`: an insertion-ordered mapping (Python dict)
from CAN id to `IdState`. -/
abbrev Registry := List (Nat × IdState)

/-- Dict lookup `states.get(can_id)`. -/
def lookupSt : Registry → Nat → Option IdState
  | [], _ => none
  | (k, st) :: rest, cid => if k = cid then some st else lookupSt rest cid

/-- Dict assignment `states[can_id] = st` (a fresh key is appended,
preserving insertion order). -/
def setSt : Registry → Nat → IdState → Registry
  | [], cid, st => [(cid, st)]
  | (k, s) :: rest, cid, st =>
    if k = cid then (cid, st) :: rest else (k, s) :: setSt rest cid st

/-- One calibration frame: `ReverseTool._state(fr.can_id)` (create on
first use, lines 122–127) followed by `ingest_for_calibration`
(line 133). -/
def calibStep (reg : Registry) (fr : Frame) : Option Registry :=
  let st := match lookupSt reg fr.can_id with
    | some st => st
    | none => freshId fr.can_id
  (ingest_for_calibration st fr.data).map (setSt reg fr.can_id)

/-- The frame loop of `ReverseTool.calibrate` (lines 132–134). -/
def calibrateFrames : Registry → List Frame → Option Registry
  | reg, [] => some reg
  | reg, fr :: rest =>
    match calibStep reg fr with
    | none => none
    | some reg' => calibrateFrames reg' rest

/-- One cell of a calibration summary row: `"XX"` or the constant value. -/
inductive RowEntry where
  | xx
  | val (v : Nat)
deriving DecidableEq, Repr

/-- Lines 144–147: the row of one state, `bytes[i]` for
`i in range(seen_len)` (`none` on `IndexError`). -/
def stRowGo : List ByteState → Nat → Option (List RowEntry)
  | _, 0 => some []
  | [], _ + 1 => none
  | bs :: rest, n + 1 =>
    (stRowGo rest n).map ((if bs.disqualified then .xx else .val bs.value) :: ·)

/-- Rows of the calibration table for the ids in the given (sorted)
order, skipping states with `seen_len == 0 or fully_disqualified`
(lines 140–148). -/
def rowsGo : List (Nat × IdState) → Option (List (Nat × List RowEntry))
  | [] => some []
  | (cid, st) :: rest =>
    if st.seen_len = 0 || st.fully_disqualified then rowsGo rest
    else
      match stRowGo st.bytes st.seen_len, rowsGo rest with
      | some r, some rs => some ((cid, r) :: rs)
      | _, _ => none

/-- The calibration summary table printed by `ReverseTool.calibrate`
(lines 139–149): states visited in ascending id order. -/
def calibRows (reg : Registry) : Option (List (Nat × List RowEntry)) :=
  rowsGo (List.insertionSort (fun x y => x.1 ≤ y.1) reg)

/-- One monitoring frame (`ReverseTool.monitor`, lines 157–166):
addresses with no model, fully disqualified, or zero width are skipped;
otherwise `diff_and_report` runs and mutates the stored state. -/
def monitorStep (reg : Registry) (fr : Frame) : Option (List (Nat × Nat × Nat) × Registry) :=
  match lookupSt reg fr.can_id with
  | none => some ([], reg)
  | some st =>
    if st.fully_disqualified || st.seen_len == 0 then some ([], reg)
    else (diff_and_report st fr.data).map fun p => (p.1, setSt reg fr.can_id p.2)

/-! ### Variance accumulation (`ReverseTool.variance_report`,
lines 192–204) -/

/-- Per-address accumulator: `counts[cid]`, `sums[cid]`, `sums2[cid]`
(the `defaultdict` default is `[0]*8`). -/
structure VarEntry where
  count : Nat
  sums : List Nat
  sums2 : List Nat
deriving DecidableEq, Repr

/-- The inner loop `for i in range(min(fr.dlc, MAX_CAN_DLC)):
b = fr.data[i]; ...` (lines 199–202).  The loop bound is the DECLARED
length, so `fr.data[i]` raises `IndexError` (= `none`) when the physical
payload is shorter. -/
def varLoop : List Nat → List Nat → List Nat → Nat → Option (List Nat × List Nat)
  | _, sums, sums2, 0 => some (sums, sums2)
  | [], _, _, _ + 1 => none
  | _ :: _, [], _, _ + 1 => none
  | _ :: _, _ :: _, [], _ + 1 => none
  | b :: data, s :: sums, s2 :: sums2, n + 1 =>
    (varLoop data sums sums2 n).map fun p => ((s + b) :: p.1, (s2 + b * b) :: p.2)

/-- One frame of the variance accumulation pass (lines 197–202). -/
def varianceIngest (acc : List (Nat × VarEntry)) (fr : Frame) : Option (List (Nat × VarEntry)) :=
  let e := match acc.lookup fr.can_id with
    | some e => e
    | none => ⟨0, List.replicate 8 0, List.replicate 8 0⟩
  (varLoop fr.data e.sums e.sums2 (min fr.dlc 8)).map fun p =>
    match acc.lookup fr.can_id with
    | some _ => acc.map fun kv => if kv.1 = fr.can_id then (kv.1, ⟨e.count + 1, p.1, p.2⟩) else kv
    | none => acc ++ [(fr.can_id, ⟨e.count + 1, p.1, p.2⟩)]

/-! ### Window selection in `main` (lines 269–301) -/

/-- Which passes `main` runs over which windows. -/
inductive Pass where
  | calibrateWin (c0 c1 : ℚ)
  | monitorWin (m0 m1 : ℚ)
  | calibrateFull
  | monitorFull
deriving DecidableEq, Repr

/-- The `else` branch (lines 292–301): without usable timestamps or with
explicit seconds, calibration and monitoring each run over the FULL
frame list, and only when their seconds argument is positive. -/
def fullPasses (calib monitor : ℚ) : List Pass :=
  (if 0 < calib then [Pass.calibrateFull] else []) ++
    (if 0 < monitor then [Pass.monitorFull] else [])

/-- Lines 269–301 of `main`: `have_ts` looks only at the first and last
frame; the auto-split of the time span into thirds happens only when
`calib == 0 and monitor == 0 and have_ts and t_max > t_min` (the `and`
short-circuits, so `None` timestamps are never compared).  `none` models
an exception; `main` has already exited when `frames` is empty, so that
case is unreachable. -/
def decidePasses (calib monitor : ℚ) (frames : List Frame) : Option (List Pass) :=
  match frames.head?, frames.getLast? with
  | some f0, some fl =>
    if calib = 0 ∧ monitor = 0 ∧ f0.ts.isSome ∧ fl.ts.isSome then
      match f0.ts, fl.ts with
      | some tmin, some tmax =>
        if tmin < tmax then
          let third := (tmax - tmin) / 3
          some [Pass.calibrateWin tmin (tmin + third),
                Pass.monitorWin (tmin + third) (tmin + 2 * third)]
        else some (fullPasses calib monitor)
      | _, _ => none
    else some (fullPasses calib monitor)
  | _, _ => none

/-! ### Sequences of model operations (for the monotonicity claim) -/

/-- One operation applied to a single per-address model during a run:
a calibration ingestion or a monitoring diff. -/
inductive CalOp where
  | cal (data : List Nat)
  | mon (data : List Nat)

/-- Apply one operation to a model. -/
def applyOp (st : IdState) : CalOp → Option IdState
  | .cal d => ingest_for_calibration st d
  | .mon d => (diff_and_report st d).map (·.2)

/-- Apply a whole sequence of operations. -/
def runOps : IdState → List CalOp → Option IdState
  | st, [] => some st
  | st, op :: ops =>
    match applyOp st op with
    | none => none
    | some st' => runOps st' ops

/-! ### Specification predicates for the monitoring diff -/

/-- Everything §4.3 of the specification promises about one monitoring
diff on a single model: it succeeds; a change record `(i, old, new)`
appears exactly for the payload indices below `observed_width` whose
non-disqualified stored byte differs from the incoming byte; indices
are strictly increasing (so each index is reported at most once); the
width and `fully_disqualified` are untouched; a reported index slides
its stored value to the new byte and every other index keeps its
state. -/
def DiffSpec (st : IdState) (data : List Nat) : Prop :=
  ∃ out st', diff_and_report st data = some (out, st') ∧
    (∀ i old new, ((i, old, new) ∈ out ↔
      i < st.seen_len ∧ ∃ bs b, st.bytes[i]? = some bs ∧ data[i]? = some b ∧
        bs.disqualified = false ∧ b ≠ bs.value ∧ old = bs.value ∧ new = b)) ∧
    List.Pairwise (fun r s => r.1 < s.1) out ∧
    st'.seen_len = st.seen_len ∧
    st'.fully_disqualified = st.fully_disqualified ∧
    (∀ i old new, (i, old, new) ∈ out → st'.bytes[i]? = some ⟨new, false⟩) ∧
    (∀ i : Nat, (∀ old new, (i, old, new) ∉ out) → st'.bytes[i]? = st.bytes[i]?)

/-- The skip rule of `ReverseTool.monitor` (line 159): an address with
no model, or with a fully disqualified model, produces no change
records and leaves the registry untouched. -/
def MonitorSkipSpec : Prop :=
  ∀ (reg : Registry) (fr : Frame),
    (lookupSt reg fr.can_id = none → monitorStep reg fr = some ([], reg)) ∧
    (∀ st : IdState, lookupSt reg fr.can_id = some st →
      st.fully_disqualified = true → monitorStep reg fr = some ([], reg))

/-! ### Concrete capture lines and states used to evaluate the claims -/

/-- A well-formed timestamp-less line WITH the `busN` token. -/
def lineBus : List Char := "can0 285 [8] DE AD BE EF 00 11 22 33".toList

/-- The same line with the `busN` token entirely absent: the address is
the first token. -/
def lineNoBus : List Char := "285 [8] DE AD BE EF 00 11 22 33".toList

/-- A line whose timestamp field matches `[\d\.]+` but is not a valid
float literal. -/
def lineBadTs : List Char := "(1.2.3) can0 285 [8] DE AD BE EF 00 11 22 33".toList

/-- A line with declared length 9 and nine hex byte pairs. -/
def lineDlc9 : List Char := "can0 123 [9] 01 02 03 04 05 06 07 08 09".toList

/-- A line with declared length 8 but only four hex byte pairs. -/
def lineShort : List Char := "can0 285 [8] DE AD BE EF".toList

/-- A small well-formed line used to instantiate the decoder contract. -/
def lineSmall : List Char := "can0 042 [3] AA BB CC".toList

/-- The frame decoded from `lineSmall`. -/
def frameSmall : Frame := ⟨none, 66, 3, [170, 187, 204]⟩

/-- Scenario A's frame: address `0x100`, payload `01 02 03 04`. -/
def frameScenA : Frame := ⟨none, 256, 4, [1, 2, 3, 4]⟩

/-- A one-frame timestamp-less capture (for the window-selection claim). -/
def framesNoTs : List Frame := [⟨none, 645, 8, [222, 173, 190, 239, 0, 17, 34, 51]⟩]

/-- A model with byte 0 already disqualified (value 7) and byte 1 still
qualified at value 3, width 2. -/
def stMono : IdState := ⟨256, 2, false, ⟨7, true⟩ :: ⟨3, false⟩ :: List.replicate 6 ⟨0, false⟩⟩

/-- A calibration ingestion followed by a monitoring diff. -/
def opsMono : List CalOp := [.cal [5, 6], .mon [9]]

/-- The state `stMono` reaches after `opsMono`. -/
def stMonoFin : IdState := ⟨256, 2, true, ⟨7, true⟩ :: ⟨3, true⟩ :: List.replicate 6 ⟨0, false⟩⟩

/-- Scenario C's calibrated model: constant bytes `01 02 03 04`. -/
def stScenC : IdState :=
  ⟨291, 4, false, ⟨1, false⟩ :: ⟨2, false⟩ :: ⟨3, false⟩ :: ⟨4, false⟩ ::
    List.replicate 4 ⟨0, false⟩⟩

/-- The model reached from fresh by ingesting the single-byte payload
`[0]`: the seed branch fires, nothing is disqualified. -/
def stSeed0 : IdState := ⟨9, 1, false, List.replicate 8 ⟨0, false⟩⟩

/-- The model reached from fresh by ingesting `[1, 2]`: width 2 exceeds
1, so both nonzero bytes are compared with the zero sentinel and
disqualified. -/
def stTwo : IdState := ⟨7, 2, true, ⟨0, true⟩ :: ⟨0, true⟩ :: List.replicate 6 ⟨0, false⟩⟩

/-! ### Lemmas about calibration ingestion -/

/-- The function `stepByte` never clears the disqualified flag; a disqualified byte is
left untouched. -/
theorem stepByte_of_disq (sl : Nat) (bs : ByteState) (b : Nat)
    (h : bs.disqualified = true) : stepByte sl bs b = bs := by
  simp [stepByte, h]

/-- The function `stepByte` can only raise the disqualified flag, never lower it. -/
theorem stepByte_disq_mono (sl : Nat) (bs : ByteState) (b : Nat)
    (h : bs.disqualified = true) : (stepByte sl bs b).disqualified = true := by
  rw [stepByte_of_disq sl bs b h]; exact h

/-- Applying the per-byte calibration rule twice with the same incoming
byte is the same as applying it once. -/
theorem stepByte_idem (sl : Nat) (bs : ByteState) (b : Nat) :
    stepByte sl (stepByte sl bs b) b = stepByte sl bs b := by
  rcases bs with ⟨v, d⟩
  cases d with
  | true => simp [stepByte]
  | false =>
    by_cases hsl : sl ≤ 1
    · by_cases hv0 : v = 0
      · subst hv0
        by_cases hb : b = 0
        · subst hb; simp [stepByte, hsl]
        · simp [stepByte, hsl, hb]
      · by_cases hbv : b = v
        · subst hbv; simp [stepByte, hv0]
        · simp [stepByte, hsl, hv0, hbv]
    · by_cases hbv : b = v
      · subst hbv; simp [stepByte, hsl]
      · simp [stepByte, hsl, hbv]

/-- The calibration byte loop succeeds exactly when the payload is no
longer than the byte-state list, and then acts positionally: position
`i` becomes `stepByte` of the old state and `data[i]`, positions beyond
the payload are unchanged. -/
theorem ingest_go_eq_zip (sl : Nat) :
    ∀ (bytes : List ByteState) (data : List Nat), data.length ≤ bytes.length →
      ingest_go sl bytes data =
        some (List.zipWith (stepByte sl) bytes data ++ bytes.drop data.length) := by
  intro bytes
  induction bytes with
  | nil =>
    intro data h
    match data with
    | [] => rfl
    | _ :: _ => simp at h
  | cons bs bytes ih =>
    intro data h
    match data with
    | [] => rfl
    | b :: data =>
      simp only [List.length_cons] at h
      simp [ingest_go, ih data (by omega), List.zipWith, List.drop]

/-- A successful calibration byte loop implies the payload fits. -/
theorem ingest_go_some_len (sl : Nat) :
    ∀ (bytes : List ByteState) (data : List Nat) (r : List ByteState),
      ingest_go sl bytes data = some r → data.length ≤ bytes.length := by
  intro bytes
  induction bytes with
  | nil =>
    intro data r h
    match data with
    | [] => simp
    | _ :: _ => simp [ingest_go] at h
  | cons bs bytes ih =>
    intro data r h
    match data with
    | [] => simp
    | b :: data =>
      simp only [ingest_go, Option.map_eq_some'] at h
      obtain ⟨r', hr', -⟩ := h
      simpa using ih data r' hr'

/-- Element lookup in the zip-padded result of the byte loop. -/
theorem zip_pad_getElem? (sl : Nat) :
    ∀ (bytes : List ByteState) (data : List Nat), data.length ≤ bytes.length →
      ∀ (i : Nat),
        (List.zipWith (stepByte sl) bytes data ++ bytes.drop data.length)[i]? =
          match bytes[i]?, data[i]? with
          | some bs, some b => some (stepByte sl bs b)
          | some bs, none => some bs
          | none, _ => none := by
  intro bytes
  induction bytes with
  | nil =>
    intro data h i
    match data with
    | [] => simp
    | _ :: _ => simp at h
  | cons bs bytes ih =>
    intro data h i
    match data with
    | [] =>
      simp only [List.zipWith_nil_right, List.drop_zero, List.nil_append]
      match (bs :: bytes)[i]? with
      | some _ => rfl
      | none => rfl
    | b :: data =>
      simp only [List.length_cons] at h
      match i with
      | 0 => simp [List.zipWith]
      | i + 1 =>
        simpa [List.zipWith, List.drop] using ih data (by omega) i

/-- Length of the zip-padded result. -/
theorem zip_pad_length (sl : Nat) (bytes : List ByteState) (data : List Nat)
    (h : data.length ≤ bytes.length) :
    (List.zipWith (stepByte sl) bytes data ++ bytes.drop data.length).length
      = bytes.length := by
  simp only [List.length_append, List.length_zipWith, List.length_drop]
  omega

/-- The function `allDisq` succeeds whenever the range fits the list. -/
theorem allDisq_isSome :
    ∀ (bytes : List ByteState) (n : Nat), n ≤ bytes.length →
      ∃ b, allDisq bytes n = some b := by
  intro bytes
  induction bytes with
  | nil =>
    intro n h
    match n with
    | 0 => exact ⟨true, rfl⟩
    | _ + 1 => simp at h
  | cons bs bytes ih =>
    intro n h
    match n with
    | 0 => exact ⟨true, rfl⟩
    | n + 1 =>
      simp only [List.length_cons] at h
      by_cases hd : bs.disqualified
      · obtain ⟨b, hb⟩ := ih n (by omega)
        exact ⟨b, by simp [allDisq, hd, hb]⟩
      · exact ⟨false, by simp [allDisq, hd]⟩

/-- What a successful `allDisq` run reports: `true` iff every present
index below `n` is disqualified. -/
theorem allDisq_some_iff :
    ∀ (bytes : List ByteState) (n : Nat) (b : Bool), allDisq bytes n = some b →
      (b = true ↔ ∀ i bs, i < n → bytes[i]? = some bs → bs.disqualified = true) := by
  intro bytes
  induction bytes with
  | nil =>
    intro n b h
    match n with
    | 0 =>
      simp only [allDisq, Option.some_inj] at h
      subst h
      simp
    | _ + 1 => simp [allDisq] at h
  | cons bs bytes ih =>
    intro n b h
    match n with
    | 0 =>
      simp only [allDisq, Option.some_inj] at h
      subst h
      simp
    | n + 1 =>
      cases hd : bs.disqualified with
      | true =>
        simp only [allDisq, hd, if_true] at h
        have := ih n b h
        constructor
        · intro hb i bsi hi hget
          match i with
          | 0 =>
            simp only [List.getElem?_cons_zero, Option.some_inj] at hget
            subst hget; exact hd
          | i + 1 =>
            simp only [List.getElem?_cons_succ] at hget
            exact (this.1 hb) i bsi (by omega) hget
        · intro hall
          exact this.2 fun i bsi hi hget =>
            hall (i + 1) bsi (by omega) (by simpa using hget)
      | false =>
        simp only [allDisq, hd, Bool.false_eq_true, if_false, Option.some_inj] at h
        subst h
        constructor
        · intro hb; cases hb
        · intro hall
          have := hall 0 bs (by omega) (by simp)
          simp [hd] at this

/-- Inversion of `ingest_for_calibration` on a nonempty payload. -/
theorem ingest_inv (st : IdState) (d : List Nat) (st' : IdState)
    (hne : d ≠ []) (h : ingest_for_calibration st d = some st') :
    ∃ bytes' fd,
      ingest_go (max st.seen_len d.length) st.bytes d = some bytes' ∧
      allDisq bytes' (max st.seen_len d.length) = some fd ∧
      st' = { st with seen_len := max st.seen_len d.length,
                      bytes := bytes', fully_disqualified := fd } := by
  match d with
  | [] => exact absurd rfl hne
  | b :: d =>
    simp only [ingest_for_calibration] at h
    split at h
    · cases h
    · rename_i bytes' hgo
      split at h
      · cases h
      · rename_i fd had
        simp only [Option.some_inj] at h
        exact ⟨bytes', fd, hgo, had, h.symm⟩

/-- Zipping a list against an initial segment ignores the appended part. -/
theorem zipWith_append_of_le {α β γ : Type} (f : α → β → γ) :
    ∀ (xs ys : List α) (l : List β), l.length ≤ xs.length →
      List.zipWith f (xs ++ ys) l = List.zipWith f xs l := by
  intro xs
  induction xs with
  | nil =>
    intro ys l h
    match l with
    | [] => simp
    | _ :: _ => simp at h
  | cons x xs ih =>
    intro ys l h
    match l with
    | [] => simp
    | b :: l =>
      simp only [List.length_cons] at h
      simp [List.zipWith, ih ys l (by omega)]

/-- Re-zipping a zip against the same right list fuses the functions. -/
theorem zipWith_zipWith_same {α β γ δ : Type} (f : γ → β → δ) (g : α → β → γ) :
    ∀ (xs : List α) (l : List β),
      List.zipWith f (List.zipWith g xs l) l = List.zipWith (fun a b => f (g a b) b) xs l := by
  intro xs
  induction xs with
  | nil => intro l; simp
  | cons x xs ih =>
    intro l
    match l with
    | [] => simp
    | b :: l => simp [List.zipWith, ih l]

/-- Pointwise-equal functions zip equally. -/
theorem zipWith_ext {α β γ : Type} (f g : α → β → γ) (h : ∀ a b, f a b = g a b) :
    ∀ (xs : List α) (l : List β), List.zipWith f xs l = List.zipWith g xs l := by
  intro xs
  induction xs with
  | nil => intro l; simp
  | cons x xs ih =>
    intro l
    match l with
    | [] => simp
    | b :: l => simp [List.zipWith, h, ih l]

/-- Dropping the length of the left part of an append yields the right
part. -/
theorem zip_pad_drop {γ : Type} : ∀ (Z D : List γ) (n : Nat), Z.length = n →
    (Z ++ D).drop n = D := by
  intro Z D n h
  subst h
  exact List.drop_left Z D

/-- Full characterization of one calibration ingestion of a nonempty
payload into a well-formed model: it succeeds, the width becomes the
max, the byte states evolve positionally by `stepByte`, and
`fully_disqualified` is recomputed as "every index below the new width
is disqualified". -/
theorem ingest_char (st : IdState) (data : List Nat)
    (hb : st.bytes.length = 8) (hs : st.seen_len ≤ 8) (hd : data.length ≤ 8)
    (hne : data ≠ []) :
    ∃ st', ingest_for_calibration st data = some st' ∧
      st'.can_id = st.can_id ∧
      st'.seen_len = max st.seen_len data.length ∧
      st'.bytes = List.zipWith (stepByte (max st.seen_len data.length)) st.bytes data
        ++ st.bytes.drop data.length ∧
      (st'.fully_disqualified = true ↔
        ∀ i bs, i < st'.seen_len → st'.bytes[i]? = some bs → bs.disqualified = true) := by
  have hlen : data.length ≤ st.bytes.length := by omega
  have hgo := ingest_go_eq_zip (max st.seen_len data.length) st.bytes data hlen
  have hlen' := zip_pad_length (max st.seen_len data.length) st.bytes data hlen
  obtain ⟨fd, hfd⟩ := allDisq_isSome _ (max st.seen_len data.length)
    (by rw [hlen', hb]; omega)
  refine ⟨⟨st.can_id, max st.seen_len data.length, fd,
    List.zipWith (stepByte (max st.seen_len data.length)) st.bytes data
      ++ st.bytes.drop data.length⟩, ?_, rfl, rfl, rfl, ?_⟩
  · rcases data with _ | ⟨b, d⟩
    · exact absurd rfl hne
    · simp only [ingest_for_calibration, hgo, hfd]
  · exact allDisq_some_iff _ _ fd hfd

/-- Re-ingesting the very same payload is a no-op: the state reached by
one ingestion is a fixed point of a second identical ingestion. -/
theorem ingest_idem (st : IdState) (d : List Nat) (st1 : IdState)
    (h : ingest_for_calibration st d = some st1) :
    ingest_for_calibration st1 d = some st1 := by
  match d with
  | [] =>
    simp only [ingest_for_calibration, Option.some_inj] at h
    subst h
    simp [ingest_for_calibration]
  | b :: d =>
    obtain ⟨bytes', fd, hgo, had, hst⟩ := ingest_inv st (b :: d) st1 (by simp) h
    have hlen := ingest_go_some_len _ _ _ _ hgo
    rw [ingest_go_eq_zip _ _ _ hlen] at hgo
    have hbytes' := Option.some_inj.mp hgo
    have hZlen : (List.zipWith (stepByte (max st.seen_len (b :: d).length)) st.bytes (b :: d)).length
        = (b :: d).length := by
      simp only [List.length_zipWith]
      omega
    have hblen : bytes'.length = st.bytes.length := by
      rw [← hbytes']
      exact zip_pad_length _ _ _ hlen
    have hmax : max (max st.seen_len (b :: d).length) (b :: d).length
        = max st.seen_len (b :: d).length :=
      Nat.max_eq_left (Nat.le_max_right _ _)
    have h1 : List.zipWith (stepByte (max st.seen_len (b :: d).length)) bytes' (b :: d)
        = List.zipWith (stepByte (max st.seen_len (b :: d).length)) st.bytes (b :: d) := by
      rw [← hbytes']
      rw [zipWith_append_of_le _ _ _ _ (by omega)]
      rw [zipWith_zipWith_same]
      exact zipWith_ext _ _ (fun bs byt => stepByte_idem _ bs byt) st.bytes (b :: d)
    have h2 : bytes'.drop (b :: d).length = st.bytes.drop (b :: d).length := by
      rw [← hbytes']
      exact zip_pad_drop _ _ _ hZlen
    have hgo2 : ingest_go (max st.seen_len (b :: d).length) bytes' (b :: d) = some bytes' := by
      rw [ingest_go_eq_zip _ bytes' (b :: d) (by omega)]
      rw [h1, h2, hbytes']
    subst hst
    simp only [ingest_for_calibration, hmax, hgo2, had]

/-- Calibration ingestion never clears a disqualified flag. -/
theorem ingest_disq_mono (st : IdState) (d : List Nat) (st' : IdState)
    (h : ingest_for_calibration st d = some st') (i : Nat) (bs : ByteState)
    (hget : st.bytes[i]? = some bs) (hdq : bs.disqualified = true) :
    ∃ bs', st'.bytes[i]? = some bs' ∧ bs'.disqualified = true := by
  match d with
  | [] =>
    simp only [ingest_for_calibration, Option.some_inj] at h
    subst h
    exact ⟨bs, hget, hdq⟩
  | b :: d =>
    obtain ⟨bytes', fd, hgo, had, hst⟩ := ingest_inv st (b :: d) st' (by simp) h
    have hlen := ingest_go_some_len _ _ _ _ hgo
    rw [ingest_go_eq_zip _ _ _ hlen] at hgo
    have hbytes' := Option.some_inj.mp hgo
    subst hst
    have hz := zip_pad_getElem? (max st.seen_len (b :: d).length) st.bytes (b :: d) hlen i
    simp only [← hbytes'] at hz ⊢
    rw [hz, hget]
    match (b :: d)[i]? with
    | some bi => exact ⟨_, rfl, stepByte_disq_mono _ bs bi hdq⟩
    | none => exact ⟨bs, rfl, hdq⟩

/-! ### Lemmas about the monitoring diff -/

/-- Unfolding: the diff loop on an exhausted payload. -/
theorem diff_go_nil_eq (sl i : Nat) (bytes : List ByteState) :
    diff_go sl i bytes [] = some ([], bytes) := by
  simp [diff_go]

/-- Unfolding: the diff loop breaks once the index reaches the width. -/
theorem diff_go_break_eq (sl i : Nat) (bytes : List ByteState) (b : Nat) (data : List Nat)
    (h : sl ≤ i) : diff_go sl i bytes (b :: data) = some ([], bytes) := by
  cases bytes with
  | nil => simp [diff_go, h]
  | cons bs rest => simp [diff_go, h]

/-- Unfolding: the diff loop dies on an exhausted byte-state list. -/
theorem diff_go_oob_eq (sl i : Nat) (b : Nat) (data : List Nat) (h : ¬sl ≤ i) :
    diff_go sl i [] (b :: data) = none := by
  simp [diff_go, h]

/-- Unfolding: one live step of the diff loop, recursive call successful. -/
theorem diff_go_cons_some_eq (sl i : Nat) (bs : ByteState) (rest : List ByteState) (b : Nat)
    (data : List Nat) (h : ¬sl ≤ i) (out1 : List (Nat × Nat × Nat)) (rest1 : List ByteState)
    (hrec : diff_go sl (i + 1) rest data = some (out1, rest1)) :
    diff_go sl i (bs :: rest) (b :: data) =
      if bs.disqualified = false ∧ b ≠ bs.value then
        some ((i, bs.value, b) :: out1, ⟨b, bs.disqualified⟩ :: rest1)
      else some (out1, bs :: rest1) := by
  simp [diff_go, h, hrec]

/-- Unfolding: one live step of the diff loop, recursive call dead. -/
theorem diff_go_cons_none_eq (sl i : Nat) (bs : ByteState) (rest : List ByteState) (b : Nat)
    (data : List Nat) (h : ¬sl ≤ i)
    (hrec : diff_go sl (i + 1) rest data = none) :
    diff_go sl i (bs :: rest) (b :: data) = none := by
  simp [diff_go, h, hrec]

/-- The diff loop succeeds when the part of the payload below the break
index fits the byte-state list. -/
theorem diff_go_isSome (sl : Nat) :
    ∀ (data : List Nat) (i : Nat) (bytes : List ByteState),
      min data.length (sl - i) ≤ bytes.length →
      ∃ r, diff_go sl i bytes data = some r := by
  intro data
  induction data with
  | nil => intro i bytes _; exact ⟨([], bytes), diff_go_nil_eq sl i bytes⟩
  | cons b data ih =>
    intro i bytes h
    by_cases hsl : sl ≤ i
    · exact ⟨([], bytes), diff_go_break_eq sl i bytes b data hsl⟩
    · match bytes with
      | [] =>
        exfalso
        simp only [List.length_nil, List.length_cons] at h
        omega
      | bs :: rest =>
        obtain ⟨⟨out, rest'⟩, hr⟩ := ih (i + 1) rest
          (by simp only [List.length_cons] at h ⊢; omega)
        rw [diff_go_cons_some_eq sl i bs rest b data hsl out rest' hr]
        by_cases hq : bs.disqualified = false ∧ b ≠ bs.value
        · exact ⟨_, by rw [if_pos hq]⟩
        · exact ⟨_, by rw [if_neg hq]⟩

/-- Membership in the diff loop's output: exactly the positions below
the width whose present, non-disqualified byte differs from the stored
value, with the old/new values as recorded. -/
theorem diff_go_mem (sl : Nat) :
    ∀ (data : List Nat) (i0 : Nat) (bytes : List ByteState)
      (out : List (Nat × Nat × Nat)) (bytes' : List ByteState),
      diff_go sl i0 bytes data = some (out, bytes') →
      ∀ j old new, ((j, old, new) ∈ out ↔
        i0 ≤ j ∧ j < sl ∧ ∃ bs b, bytes[j - i0]? = some bs ∧ data[j - i0]? = some b ∧
          bs.disqualified = false ∧ b ≠ bs.value ∧ old = bs.value ∧ new = b) := by
  intro data
  induction data with
  | nil =>
    intro i0 bytes out bytes' h j old new
    rw [diff_go_nil_eq] at h
    simp only [Option.some.injEq, Prod.mk.injEq] at h
    rw [← h.1]
    simp
  | cons b data ih =>
    intro i0 bytes out bytes' h j old new
    by_cases hsl : sl ≤ i0
    · rw [diff_go_break_eq sl i0 bytes b data hsl] at h
      simp only [Option.some.injEq, Prod.mk.injEq] at h
      rw [← h.1]
      simp only [List.not_mem_nil, false_iff]
      rintro ⟨h1, h2, -⟩
      omega
    · match bytes with
      | [] => rw [diff_go_oob_eq sl i0 b data hsl] at h; cases h
      | bs :: rest =>
        rcases hrec : diff_go sl (i0 + 1) rest data with _ | ⟨out1, rest1⟩
        · rw [diff_go_cons_none_eq sl i0 bs rest b data hsl hrec] at h; cases h
        · rw [diff_go_cons_some_eq sl i0 bs rest b data hsl out1 rest1 hrec] at h
          have IH := ih (i0 + 1) rest out1 rest1 hrec
          have hshift : ∀ m : Nat, i0 + 1 ≤ m → m - i0 = (m - (i0 + 1)) + 1 :=
            fun m hm => by omega
          by_cases hq : bs.disqualified = false ∧ b ≠ bs.value
          · rw [if_pos hq] at h
            simp only [Option.some.injEq, Prod.mk.injEq] at h
            rw [← h.1]
            constructor
            · intro hmem
              rcases List.mem_cons.mp hmem with heq | htail
              · simp only [Prod.mk.injEq] at heq
                obtain ⟨hj, ho, hn⟩ := heq
                subst hj
                exact ⟨le_refl _, by omega, bs, b, by simp, by simp, hq.1, hq.2, ho, hn⟩
              · obtain ⟨hj1, hjsl, bs1, b1, hbg, hdg, hd1, hv1, ho1, hn1⟩ :=
                  (IH j old new).mp htail
                refine ⟨by omega, hjsl, bs1, b1, ?_, ?_, hd1, hv1, ho1, hn1⟩
                · rw [hshift j hj1, List.getElem?_cons_succ]; exact hbg
                · rw [hshift j hj1, List.getElem?_cons_succ]; exact hdg
            · rintro ⟨hj0, hjsl, bs1, b1, hbg, hdg, hd1, hv1, ho1, hn1⟩
              by_cases hji : j = i0
              · subst hji
                simp only [Nat.sub_self, List.getElem?_cons_zero, Option.some.injEq] at hbg hdg
                subst hbg; subst hdg; subst ho1; subst hn1
                exact List.mem_cons_self _ _
              · have hj1 : i0 + 1 ≤ j := by omega
                refine List.mem_cons.mpr (Or.inr ((IH j old new).mpr
                  ⟨hj1, hjsl, bs1, b1, ?_, ?_, hd1, hv1, ho1, hn1⟩))
                · rw [hshift j hj1, List.getElem?_cons_succ] at hbg; exact hbg
                · rw [hshift j hj1, List.getElem?_cons_succ] at hdg; exact hdg
          · rw [if_neg hq] at h
            simp only [Option.some.injEq, Prod.mk.injEq] at h
            rw [← h.1]
            constructor
            · intro hmem
              obtain ⟨hj1, hjsl, bs1, b1, hbg, hdg, hd1, hv1, ho1, hn1⟩ :=
                (IH j old new).mp hmem
              refine ⟨by omega, hjsl, bs1, b1, ?_, ?_, hd1, hv1, ho1, hn1⟩
              · rw [hshift j hj1, List.getElem?_cons_succ]; exact hbg
              · rw [hshift j hj1, List.getElem?_cons_succ]; exact hdg
            · rintro ⟨hj0, hjsl, bs1, b1, hbg, hdg, hd1, hv1, ho1, hn1⟩
              by_cases hji : j = i0
              · exfalso
                subst hji
                simp only [Nat.sub_self, List.getElem?_cons_zero, Option.some.injEq] at hbg hdg
                subst hbg; subst hdg
                exact hq ⟨hd1, hv1⟩
              · have hj1 : i0 + 1 ≤ j := by omega
                refine (IH j old new).mpr ⟨hj1, hjsl, bs1, b1, ?_, ?_, hd1, hv1, ho1, hn1⟩
                · rw [hshift j hj1, List.getElem?_cons_succ] at hbg; exact hbg
                · rw [hshift j hj1, List.getElem?_cons_succ] at hdg; exact hdg

/-- The indices reported by the diff loop are strictly increasing. -/
theorem diff_go_pairwise (sl : Nat) :
    ∀ (data : List Nat) (i0 : Nat) (bytes : List ByteState)
      (out : List (Nat × Nat × Nat)) (bytes' : List ByteState),
      diff_go sl i0 bytes data = some (out, bytes') →
      List.Pairwise (fun r s => r.1 < s.1) out := by
  intro data
  induction data with
  | nil =>
    intro i0 bytes out bytes' h
    rw [diff_go_nil_eq] at h
    simp only [Option.some.injEq, Prod.mk.injEq] at h
    rw [← h.1]
    exact List.Pairwise.nil
  | cons b data ih =>
    intro i0 bytes out bytes' h
    by_cases hsl : sl ≤ i0
    · rw [diff_go_break_eq sl i0 bytes b data hsl] at h
      simp only [Option.some.injEq, Prod.mk.injEq] at h
      rw [← h.1]
      exact List.Pairwise.nil
    · match bytes with
      | [] => rw [diff_go_oob_eq sl i0 b data hsl] at h; cases h
      | bs :: rest =>
        rcases hrec : diff_go sl (i0 + 1) rest data with _ | ⟨out1, rest1⟩
        · rw [diff_go_cons_none_eq sl i0 bs rest b data hsl hrec] at h; cases h
        · rw [diff_go_cons_some_eq sl i0 bs rest b data hsl out1 rest1 hrec] at h
          have htail := ih (i0 + 1) rest out1 rest1 hrec
          by_cases hq : bs.disqualified = false ∧ b ≠ bs.value
          · rw [if_pos hq] at h
            simp only [Option.some.injEq, Prod.mk.injEq] at h
            rw [← h.1]
            refine List.Pairwise.cons ?_ htail
            intro r hr
            rcases r with ⟨j, old, new⟩
            have := ((diff_go_mem sl data (i0 + 1) rest out1 rest1 hrec j old new).mp hr).1
            simpa using by omega
          · rw [if_neg hq] at h
            simp only [Option.some.injEq, Prod.mk.injEq] at h
            rw [← h.1]
            exact htail

/-- A reported change updates the stored value at its index (and the
state stays qualified). -/
theorem diff_go_upd (sl : Nat) :
    ∀ (data : List Nat) (i0 : Nat) (bytes : List ByteState)
      (out : List (Nat × Nat × Nat)) (bytes' : List ByteState),
      diff_go sl i0 bytes data = some (out, bytes') →
      ∀ j old new, (j, old, new) ∈ out → bytes'[j - i0]? = some ⟨new, false⟩ := by
  intro data
  induction data with
  | nil =>
    intro i0 bytes out bytes' h j old new hmem
    rw [diff_go_nil_eq] at h
    simp only [Option.some.injEq, Prod.mk.injEq] at h
    rw [← h.1] at hmem
    cases hmem
  | cons b data ih =>
    intro i0 bytes out bytes' h j old new hmem
    by_cases hsl : sl ≤ i0
    · rw [diff_go_break_eq sl i0 bytes b data hsl] at h
      simp only [Option.some.injEq, Prod.mk.injEq] at h
      rw [← h.1] at hmem
      cases hmem
    · match bytes with
      | [] => rw [diff_go_oob_eq sl i0 b data hsl] at h; cases h
      | bs :: rest =>
        rcases hrec : diff_go sl (i0 + 1) rest data with _ | ⟨out1, rest1⟩
        · rw [diff_go_cons_none_eq sl i0 bs rest b data hsl hrec] at h; cases h
        · rw [diff_go_cons_some_eq sl i0 bs rest b data hsl out1 rest1 hrec] at h
          by_cases hq : bs.disqualified = false ∧ b ≠ bs.value
          · rw [if_pos hq] at h
            simp only [Option.some.injEq, Prod.mk.injEq] at h
            rw [← h.1] at hmem
            rw [← h.2]
            rcases List.mem_cons.mp hmem with heq | htail
            · simp only [Prod.mk.injEq] at heq
              obtain ⟨hj, -, hn⟩ := heq
              subst hj; subst hn
              simp [hq.1]
            · have hj1 : i0 + 1 ≤ j :=
                ((diff_go_mem sl data (i0 + 1) rest out1 rest1 hrec j old new).mp htail).1
              have : j - i0 = (j - (i0 + 1)) + 1 := by omega
              rw [this, List.getElem?_cons_succ]
              exact ih (i0 + 1) rest out1 rest1 hrec j old new htail
          · rw [if_neg hq] at h
            simp only [Option.some.injEq, Prod.mk.injEq] at h
            rw [← h.1] at hmem
            rw [← h.2]
            have hj1 : i0 + 1 ≤ j :=
              ((diff_go_mem sl data (i0 + 1) rest out1 rest1 hrec j old new).mp hmem).1
            have : j - i0 = (j - (i0 + 1)) + 1 := by omega
            rw [this, List.getElem?_cons_succ]
            exact ih (i0 + 1) rest out1 rest1 hrec j old new hmem

/-- A position with no reported change keeps its byte state. -/
theorem diff_go_keep (sl : Nat) :
    ∀ (data : List Nat) (i0 : Nat) (bytes : List ByteState)
      (out : List (Nat × Nat × Nat)) (bytes' : List ByteState),
      diff_go sl i0 bytes data = some (out, bytes') →
      ∀ j, i0 ≤ j → (∀ old new, (j, old, new) ∉ out) →
        bytes'[j - i0]? = bytes[j - i0]? := by
  intro data
  induction data with
  | nil =>
    intro i0 bytes out bytes' h j _ _
    rw [diff_go_nil_eq] at h
    simp only [Option.some.injEq, Prod.mk.injEq] at h
    rw [← h.2]
  | cons b data ih =>
    intro i0 bytes out bytes' h j hj hnot
    by_cases hsl : sl ≤ i0
    · rw [diff_go_break_eq sl i0 bytes b data hsl] at h
      simp only [Option.some.injEq, Prod.mk.injEq] at h
      rw [← h.2]
    · match bytes with
      | [] => rw [diff_go_oob_eq sl i0 b data hsl] at h; cases h
      | bs :: rest =>
        rcases hrec : diff_go sl (i0 + 1) rest data with _ | ⟨out1, rest1⟩
        · rw [diff_go_cons_none_eq sl i0 bs rest b data hsl hrec] at h; cases h
        · rw [diff_go_cons_some_eq sl i0 bs rest b data hsl out1 rest1 hrec] at h
          by_cases hq : bs.disqualified = false ∧ b ≠ bs.value
          · rw [if_pos hq] at h
            simp only [Option.some.injEq, Prod.mk.injEq] at h
            by_cases hji : j = i0
            · exfalso
              subst hji
              exact hnot bs.value b (by rw [← h.1]; exact List.mem_cons_self _ _)
            · have hj1 : i0 + 1 ≤ j := by omega
              have hnot1 : ∀ old new, (j, old, new) ∉ out1 := by
                intro old new hmem1
                exact hnot old new (by rw [← h.1]; exact List.mem_cons.mpr (Or.inr hmem1))
              rw [← h.2]
              have hsh : j - i0 = (j - (i0 + 1)) + 1 := by omega
              rw [hsh, List.getElem?_cons_succ, List.getElem?_cons_succ]
              exact ih (i0 + 1) rest out1 rest1 hrec j hj1 hnot1
          · rw [if_neg hq] at h
            simp only [Option.some.injEq, Prod.mk.injEq] at h
            by_cases hji : j = i0
            · subst hji
              rw [← h.2]
              simp
            · have hj1 : i0 + 1 ≤ j := by omega
              have hnot1 : ∀ old new, (j, old, new) ∉ out1 := by
                intro old new hmem1
                exact hnot old new (by rw [← h.1]; exact hmem1)
              rw [← h.2]
              have hsh : j - i0 = (j - (i0 + 1)) + 1 := by omega
              rw [hsh, List.getElem?_cons_succ, List.getElem?_cons_succ]
              exact ih (i0 + 1) rest out1 rest1 hrec j hj1 hnot1

/-- The diff loop never changes a disqualified flag (in particular a
monitoring diff cannot re-qualify a byte). -/
theorem diff_go_disq (sl : Nat) :
    ∀ (data : List Nat) (i0 : Nat) (bytes : List ByteState)
      (out : List (Nat × Nat × Nat)) (bytes' : List ByteState),
      diff_go sl i0 bytes data = some (out, bytes') →
      ∀ (j : Nat) (bs : ByteState), bytes[j]? = some bs →
        ∃ bs' : ByteState, bytes'[j]? = some bs' ∧ bs'.disqualified = bs.disqualified := by
  intro data
  induction data with
  | nil =>
    intro i0 bytes out bytes' h j bs hget
    rw [diff_go_nil_eq] at h
    simp only [Option.some.injEq, Prod.mk.injEq] at h
    rw [← h.2]
    exact ⟨bs, hget, rfl⟩
  | cons b data ih =>
    intro i0 bytes out bytes' h j bs hget
    by_cases hsl : sl ≤ i0
    · rw [diff_go_break_eq sl i0 bytes b data hsl] at h
      simp only [Option.some.injEq, Prod.mk.injEq] at h
      rw [← h.2]
      exact ⟨bs, hget, rfl⟩
    · match bytes with
      | [] => rw [diff_go_oob_eq sl i0 b data hsl] at h; cases h
      | bs0 :: rest =>
        rcases hrec : diff_go sl (i0 + 1) rest data with _ | ⟨out1, rest1⟩
        · rw [diff_go_cons_none_eq sl i0 bs0 rest b data hsl hrec] at h; cases h
        · rw [diff_go_cons_some_eq sl i0 bs0 rest b data hsl out1 rest1 hrec] at h
          by_cases hq : bs0.disqualified = false ∧ b ≠ bs0.value
          · rw [if_pos hq] at h
            simp only [Option.some.injEq, Prod.mk.injEq] at h
            rw [← h.2]
            match j with
            | 0 =>
              simp only [List.getElem?_cons_zero, Option.some.injEq] at hget
              exact ⟨⟨b, bs0.disqualified⟩, by simp,
                show bs0.disqualified = bs.disqualified from congrArg ByteState.disqualified hget⟩
            | j + 1 =>
              simp only [List.getElem?_cons_succ] at hget ⊢
              exact ih (i0 + 1) rest out1 rest1 hrec j bs hget
          · rw [if_neg hq] at h
            simp only [Option.some.injEq, Prod.mk.injEq] at h
            rw [← h.2]
            match j with
            | 0 =>
              simp only [List.getElem?_cons_zero, Option.some.injEq] at hget
              exact ⟨bs0, by simp, congrArg ByteState.disqualified hget⟩
            | j + 1 =>
              simp only [List.getElem?_cons_succ] at hget ⊢
              exact ih (i0 + 1) rest out1 rest1 hrec j bs hget

/-! ### Decoder, registry and pass-level lemmas -/

/-- The conversion step truncates the payload to the declared length, so
the payload can never be longer than it. -/
theorem convertGroups_frame_len (ts : Option ℚ) (idg dlcg datg : List Char) (f : Frame)
    (h : convertGroups ts idg dlcg datg = .frame f) : f.data.length ≤ f.dlc := by
  simp only [convertGroups] at h
  split at h
  · simp only [LineResult.frame.injEq] at h
    subst h
    simp
  · cases h

/-- Every frame the line decoder produces has payload no longer than its
declared length. -/
theorem parse_line_frame_len (raw : List Char) (f : Frame)
    (h : parse_line raw = .frame f) : f.data.length ≤ f.dlc := by
  simp only [parse_line] at h
  split at h
  · cases h
  · split at h
    · split at h
      · exact convertGroups_frame_len _ _ _ _ _ h
      · cases h
    · split at h
      · exact convertGroups_frame_len _ _ _ _ _ h
      · cases h

/-- Calibration ingestion of a payload of length at most 8 into a
well-formed model never dies. -/
theorem ingest_isSome_of_fits (st : IdState) (data : List Nat)
    (hb : st.bytes.length = 8) (hs : st.seen_len ≤ 8) (hd : data.length ≤ 8) :
    ∃ st', ingest_for_calibration st data = some st' := by
  rcases data with _ | ⟨b, d⟩
  · exact ⟨st, by simp [ingest_for_calibration]⟩
  · obtain ⟨st', h, -, -, -, -⟩ := ingest_char st (b :: d) hb hs hd (by simp)
    exact ⟨st', h⟩

/-- Element lookup in a replicated list, below the length. -/
theorem replicate_getElem?_lt {α : Type} (x : α) :
    ∀ (n i : Nat), i < n → (List.replicate n x)[i]? = some x := by
  intro n
  induction n with
  | zero => intro i h; omega
  | succ n ih =>
    intro i h
    match i with
    | 0 => simp [List.replicate_succ]
    | i + 1 =>
      rw [List.replicate_succ]
      simp only [List.getElem?_cons_succ]
      exact ih i (by omega)

/-- With width at least 2, a nonzero byte compared against the zero
sentinel is disqualified. -/
theorem stepByte_fresh_nonzero (sl b : Nat) (h2 : 2 ≤ sl) (hb : b ≠ 0) :
    stepByte sl ⟨0, false⟩ b = ⟨0, true⟩ := by
  have hns : ¬sl ≤ 1 := by omega
  simp [stepByte, hns, hb]

/-- A registry made of one fully disqualified state prints no
calibration rows. -/
theorem calibRows_single_skip (a : Nat) (st : IdState) (h : st.fully_disqualified = true) :
    calibRows [(a, st)] = some [] := by
  unfold calibRows
  have hsort : List.insertionSort (fun x y : Nat × IdState => x.1 ≤ y.1) [(a, st)] = [(a, st)] := by
    simp [List.insertionSort, List.orderedInsert]
  rw [hsort]
  simp [rowsGo, h]

/-- One calibration frame on the empty registry creates the address's
model and ingests into it. -/
theorem calibStep_empty (fr : Frame) (st1 : IdState)
    (h : ingest_for_calibration (freshId fr.can_id) fr.data = some st1) :
    calibStep [] fr = some [(fr.can_id, st1)] := by
  simp [calibStep, lookupSt, h, setSt]

/-- A calibration frame whose ingestion is a no-op leaves a singleton
registry unchanged. -/
theorem calibStep_found (a : Nat) (st : IdState) (fr : Frame) (hfr : fr.can_id = a)
    (h : ingest_for_calibration st fr.data = some st) :
    calibStep [(a, st)] fr = some [(a, st)] := by
  subst hfr
  simp [calibStep, lookupSt, h, setSt]

/-- Folding a frame whose calibration step is a registry fixed point. -/
theorem calibrateFrames_fix (reg : Registry) (fr : Frame) (h : calibStep reg fr = some reg) :
    ∀ n, calibrateFrames reg (List.replicate n fr) = some reg := by
  intro n
  induction n with
  | zero => simp [calibrateFrames]
  | succ n ih => simp [List.replicate_succ, calibrateFrames, h, ih]

/-- The monitoring diff of one model satisfies `DiffSpec` whenever the
recorded width fits the byte-state list. -/
theorem diff_spec_of_fits (st : IdState) (data : List Nat)
    (h : st.seen_len ≤ st.bytes.length) : DiffSpec st data := by
  obtain ⟨⟨out, bytes'⟩, hgo⟩ := diff_go_isSome st.seen_len data 0 st.bytes (by omega)
  refine ⟨out, { st with bytes := bytes' }, ?_, ?_, ?_, rfl, rfl, ?_, ?_⟩
  · simp [diff_and_report, hgo]
  · intro i old new
    have hm := diff_go_mem st.seen_len data 0 st.bytes out bytes' hgo i old new
    simpa using hm
  · exact diff_go_pairwise st.seen_len data 0 st.bytes out bytes' hgo
  · intro i old new hmem
    have hu := diff_go_upd st.seen_len data 0 st.bytes out bytes' hgo i old new hmem
    simpa using hu
  · intro i hnot
    have hk := diff_go_keep st.seen_len data 0 st.bytes out bytes' hgo i (Nat.zero_le i) hnot
    simpa using hk

/-- The monitor skip rule holds for every registry and frame. -/
theorem monitorSkip_holds : MonitorSkipSpec := by
  intro reg fr
  constructor
  · intro h
    simp [monitorStep, h]
  · intro st h hful
    simp [monitorStep, h, hful]

/-! ### The claims -/

/-- Claim C1, counterexample.  The claim says Scenario A (address
`0x100` carrying payload `01 02 03 04` on every one of 100 calibration
frames) makes calibration report the row `100 01 02 03 04`.  In fact
the very first frame already compares every byte against the zero
sentinel (`seen_len` is raised to 4 BEFORE the per-byte loop, so the
`seen_len <= 1` seed branch never fires), disqualifies all four nonzero
bytes, leaves the address fully disqualified, and the calibration table
is empty. -/
theorem claim_C1_counterexample :
    (calibrateFrames [] (List.replicate 100 frameScenA)).bind calibRows = some [] ∧
    ((calibrateFrames [] (List.replicate 100 frameScenA)).bind
      (fun reg => lookupSt reg 256)).map IdState.fully_disqualified = some true := by
  decide

/-- Claim C1, amended.  For a capture in which one address carries an
identical multi-byte payload (length ≥ 2, every byte nonzero) on every
calibration frame, calibration reports NO row for that address: because
`seen_len` is updated to the payload length before the per-byte loop,
the seed branch (which requires `seen_len ≤ 1`) is skipped even on the
very first frame, every byte is compared against the zero sentinel and
disqualified, and the address ends fully disqualified.  Seeding without
comparison happens only while the observed width is at most 1. -/
theorem claim_C1_theorem (a : Nat) (ts : Option ℚ) (dlc n : Nat) (p : List Nat)
    (h2 : 2 ≤ p.length) (h8 : p.length ≤ 8) (hnz : ∀ b ∈ p, b ≠ 0) (hn : 1 ≤ n) :
    ∃ st1, calibrateFrames [] (List.replicate n (⟨ts, a, dlc, p⟩ : Frame)) = some [(a, st1)] ∧
      st1.seen_len = p.length ∧ st1.fully_disqualified = true ∧
      (∀ i bs, i < st1.seen_len → st1.bytes[i]? = some bs → bs.disqualified = true) ∧
      calibRows [(a, st1)] = some [] := by
  obtain ⟨st1, hing, hcan, hsl, hbytes, hiff⟩ :=
    ingest_char (freshId a) p (by simp [freshId]) (by simp [freshId]) h8
      (by intro hp; rw [hp] at h2; simp at h2)
  have hfresh8 : (freshId a).bytes.length = 8 := by simp [freshId]
  have hsl' : st1.seen_len = p.length := by
    rw [hsl]
    simp [freshId]
  have hall : ∀ i bs, i < st1.seen_len → st1.bytes[i]? = some bs → bs.disqualified = true := by
    intro i bs hi hget
    rw [hsl'] at hi
    rw [hbytes, zip_pad_getElem? _ _ _ (by omega) i] at hget
    have hfr : (freshId a).bytes[i]? = some ⟨0, false⟩ := by
      simp only [freshId]
      exact replicate_getElem?_lt _ 8 i (by omega)
    have hp : p[i]? = some p[i] := List.getElem?_eq_getElem (by omega)
    rw [hfr, hp] at hget
    simp only [Option.some.injEq] at hget
    have hnzi : p[i] ≠ 0 := hnz _ (List.getElem_mem _)
    have hmax2 : 2 ≤ max (freshId a).seen_len p.length := by
      simp only [freshId]
      omega
    rw [stepByte_fresh_nonzero _ _ hmax2 hnzi] at hget
    rw [← hget]
  have hfully : st1.fully_disqualified = true := hiff.mpr hall
  have hidem := ingest_idem (freshId a) p st1 hing
  have hstep0 : calibStep [] (⟨ts, a, dlc, p⟩ : Frame) = some [(a, st1)] :=
    calibStep_empty _ _ hing
  have hstepfix : calibStep [(a, st1)] (⟨ts, a, dlc, p⟩ : Frame) = some [(a, st1)] :=
    calibStep_found a st1 _ rfl hidem
  obtain ⟨m, rfl⟩ : ∃ m, n = m + 1 := ⟨n - 1, by omega⟩
  refine ⟨st1, ?_, hsl', hfully, hall, calibRows_single_skip a st1 hfully⟩
  rw [List.replicate_succ]
  simp [calibrateFrames, hstep0, calibrateFrames_fix _ _ hstepfix m]

/-- Claim C1, witness: the amended claim evaluated at Scenario A's
exact input (address `0x100`, payload `01 02 03 04`, 100 frames). -/
theorem claim_C1_witness :
    ∃ st1,
      calibrateFrames [] (List.replicate 100 (⟨none, 256, 4, [1, 2, 3, 4]⟩ : Frame))
        = some [(256, st1)] ∧
      st1.seen_len = 4 ∧ st1.fully_disqualified = true ∧
      (∀ i bs, i < st1.seen_len → st1.bytes[i]? = some bs → bs.disqualified = true) ∧
      calibRows [(256, st1)] = some [] := by
  have h := claim_C1_theorem 256 none 4 100 [1, 2, 3, 4]
    (by decide) (by decide) (by decide) (by decide)
  simpa using h

/-- Claim C2, counterexample.  The claim says decoded payloads never
exceed 8 bytes and calibration ingestion never indexes out of range.
But the decoder only truncates against the DECLARED length: a line with
declared length 9 and nine byte pairs yields a 9-byte payload, and
ingesting it indexes byte state 8 of the fixed 8-element list — in
Python an uncaught `IndexError` (here `none`). -/
theorem claim_C2_counterexample :
    parse_line lineDlc9 = .frame ⟨none, 291, 9, [1, 2, 3, 4, 5, 6, 7, 8, 9]⟩ ∧
    ingest_for_calibration (freshId 291) [1, 2, 3, 4, 5, 6, 7, 8, 9] = none := by
  decide

/-- Claim C2, amended.  Every decoded frame's payload is at most the
DECLARED length (not at most 8): when the payload fits in 8 bytes —
in particular whenever the declared length is at most 8 — calibration
ingestion of a well-formed model succeeds and never indexes out of
range, but a declared length above 8 can produce a longer payload whose
ingestion is an out-of-range error. -/
theorem claim_C2_amended :
    (∀ (raw : List Char) (f : Frame), parse_line raw = .frame f → f.data.length ≤ f.dlc) ∧
    (∀ (st : IdState) (data : List Nat), st.bytes.length = 8 → st.seen_len ≤ 8 →
      data.length ≤ 8 → ∃ st', ingest_for_calibration st data = some st') :=
  ⟨parse_line_frame_len, ingest_isSome_of_fits⟩

/-- Claim C2, witness: the amended claim evaluated on a concrete line
and a concrete ingestion. -/
theorem claim_C2_witness :
    parse_line lineSmall = .frame frameSmall ∧
    frameSmall.data.length ≤ frameSmall.dlc ∧
    ∃ st', ingest_for_calibration (freshId 66) frameSmall.data = some st' :=
  ⟨by decide, claim_C2_amended.1 lineSmall frameSmall (by decide),
    claim_C2_amended.2 (freshId 66) frameSmall.data (by decide) (by decide) (by decide)⟩

/-- Claim C3 (code bug).  The timestamp conversion
`float(m.group("ts"))` on line 56 sits OUTSIDE the `try` block that
catches every other conversion, so a line whose timestamp field matches
`[\d\.]+` but is not a float literal (`(1.2.3) …`) raises an uncaught
`ValueError` and aborts the whole decoding pass instead of being
counted as a parse failure. -/
theorem claim_C3_theorem :
    parse_line lineBadTs = .crash ∧ parse_dump [lineBadTs] = none := by
  decide

/-- Claim C4, counterexample.  The claim says the timestamp-less shape
matches even with the `busN` token entirely absent, but the second
regex `(?:can\d+\s+)(?P<id>…)` REQUIRES the token (the non-capturing
group carries no `?`), so the address-first line is a parse failure. -/
theorem claim_C4_counterexample : parse_line lineNoBus = .bad := by
  decide

/-- Claim C4, amended.  The timestamp-less shape is accepted only with
the `busN` token present: `can0 285 [8] …` decodes to the expected
frame, while the same line with the token removed (address as first
token) is a counted parse failure. -/
theorem claim_C4_amended :
    parse_line lineBus = .frame ⟨none, 645, 8, [222, 173, 190, 239, 0, 17, 34, 51]⟩ ∧
    parse_line lineNoBus = .bad := by
  decide

/-- Claim C5 (code bug).  A line with declared length 8 but only four
byte pairs decodes to a frame with payload length 4 (first half of the
claim holds), but the variance pass iterates
`for i in range(min(fr.dlc, 8))` — the DECLARED length — and reads
`fr.data[i]`, so on this frame it reads index 4 of a 4-byte payload:
an uncaught `IndexError` (`none`), not an update restricted to the
actual payload length. -/
theorem claim_C5_theorem :
    parse_line lineShort = .frame ⟨none, 645, 8, [222, 173, 190, 239]⟩ ∧
    varianceIngest [] ⟨none, 645, 8, [222, 173, 190, 239]⟩ = none := by
  decide

/-- Claim C6, counterexample.  With windowing requested (calib = 0 and
monitor = 0) on a timestamp-less capture, `main` does not crash, but it
also does not degrade to running calibration and monitoring over the
full sequence: the `else` branch runs a pass only when its seconds
argument is positive, so NO pass runs at all. -/
theorem claim_C6_counterexample :
    decidePasses 0 0 framesNoTs = some [] ∧
    Pass.calibrateFull ∉ ([] : List Pass) ∧ Pass.monitorFull ∉ ([] : List Pass) := by
  decide

/-- Claim C6, amended.  When the window is malformed — the first or
last frame lacks a timestamp, or the last timestamp is not after the
first — and auto-split windowing was requested (calib = 0, monitor =
0), the tool does not crash: the window comparison is short-circuited
and `main` falls into the non-windowed branch; but since both seconds
arguments are 0, neither calibration nor monitoring runs at all (the
frames are NOT processed through those passes). -/
theorem claim_C6_amended (frames : List Frame) (f0 fl : Frame)
    (h0 : frames.head? = some f0) (h1 : frames.getLast? = some fl)
    (hmal : f0.ts = none ∨ fl.ts = none ∨
      (∀ a b : ℚ, f0.ts = some a → fl.ts = some b → b ≤ a)) :
    decidePasses 0 0 frames = some [] := by
  simp only [decidePasses, h0, h1]
  rcases hf0 : f0.ts with _ | ta
  · rw [if_neg]
    · simp [fullPasses]
    · simp [hf0]
  · rcases hfl : fl.ts with _ | tb
    · rw [if_neg]
      · simp [fullPasses]
      · simp [hfl]
    · have hnlt : ¬ta < tb := by
        rcases hmal with h | h | h
        · rw [hf0] at h; cases h
        · rw [hfl] at h; cases h
        · exact not_lt.mpr (h ta tb hf0 hfl)
      simp [hnlt, fullPasses]

/-- Claim C6, witness: the amended claim evaluated on the one-frame
timestamp-less capture. -/
theorem claim_C6_witness : decidePasses 0 0 framesNoTs = some [] :=
  claim_C6_amended framesNoTs ⟨none, 645, 8, [222, 173, 190, 239, 0, 17, 34, 51]⟩
    ⟨none, 645, 8, [222, 173, 190, 239, 0, 17, 34, 51]⟩ (by decide) (by decide)
    (Or.inl rfl)

/-- Claim C7 (confirmed).  Disqualification is monotonic: over any
sequence of calibration ingestions and monitoring diffs that completes,
a byte index once disqualified stays disqualified. -/
theorem claim_C7_theorem (ops : List CalOp) :
    ∀ (st st' : IdState), runOps st ops = some st' →
      ∀ (i : Nat) (bs : ByteState), st.bytes[i]? = some bs → bs.disqualified = true →
        ∃ bs', st'.bytes[i]? = some bs' ∧ bs'.disqualified = true := by
  induction ops with
  | nil =>
    intro st st' h i bs hget hdq
    simp only [runOps, Option.some_inj] at h
    subst h
    exact ⟨bs, hget, hdq⟩
  | cons op ops ih =>
    intro st st' h i bs hget hdq
    simp only [runOps] at h
    rcases hap : applyOp st op with _ | st1
    · rw [hap] at h; cases h
    · rw [hap] at h
      match op, hap with
      | .cal d, hap =>
        simp only [applyOp] at hap
        obtain ⟨bs1, hget1, hdq1⟩ := ingest_disq_mono st d st1 hap i bs hget hdq
        exact ih st1 st' h i bs1 hget1 hdq1
      | .mon d, hap =>
        simp only [applyOp, Option.map_eq_some'] at hap
        obtain ⟨⟨out1, stmid⟩, hgo, hst1⟩ := hap
        simp only at hst1
        simp only [diff_and_report, Option.map_eq_some'] at hgo
        obtain ⟨⟨out0, bytes0⟩, hgo0, hpair⟩ := hgo
        simp only [Prod.mk.injEq] at hpair
        obtain ⟨bs1, hget1, hdqeq⟩ :=
          diff_go_disq st.seen_len d 0 st.bytes out0 bytes0 hgo0 i bs hget
        have hget1' : st1.bytes[i]? = some bs1 := by
          rw [← hst1, ← hpair.2]
          exact hget1
        exact ih st1 st' h i bs1 hget1' (by rw [hdqeq]; exact hdq)

/-- Claim C7, witness: a model with byte 0 disqualified keeps it
disqualified through a calibration ingestion and a monitoring diff. -/
theorem claim_C7_witness :
    runOps stMono opsMono = some stMonoFin ∧
    ∃ bs', stMonoFin.bytes[0]? = some bs' ∧ bs'.disqualified = true :=
  ⟨by decide, claim_C7_theorem opsMono stMono stMonoFin (by decide) 0 ⟨7, true⟩
    (by decide) (by decide)⟩

/-- Claim C8, counterexample.  The claim includes ingestion of an EMPTY
payload, but `ingest_for_calibration` returns immediately on empty data
without recomputing the flag: on a fresh model (width 0) the
recomputation invariant fails, since every index of the empty range
`[0, 0)` is vacuously disqualified while `fully_disqualified` is
`false`. -/
theorem claim_C8_counterexample :
    ingest_for_calibration (freshId 256) [] = some (freshId 256) ∧
    (freshId 256).seen_len = 0 ∧
    (freshId 256).fully_disqualified = false ∧
    ¬((freshId 256).fully_disqualified = true ↔
      ∀ i bs, i < (freshId 256).seen_len → (freshId 256).bytes[i]? = some bs →
        bs.disqualified = true) := by
  refine ⟨by decide, by decide, by decide, fun hiff => ?_⟩
  have hall : ∀ i bs, i < (freshId 256).seen_len → (freshId 256).bytes[i]? = some bs →
      bs.disqualified = true := by
    intro i bs hi _
    exfalso
    simp [freshId] at hi
  have hf := hiff.mpr hall
  simp [freshId] at hf

/-- Claim C8, amended.  After every calibration ingestion of a
NON-EMPTY payload into a well-formed model, `fully_disqualified` is
true iff every byte index in `[0, observed_width)` is disqualified —
the flag is recomputed from the per-index flags.  An empty payload
returns early without recomputation, so the invariant can fail there
(see the counterexample). -/
theorem claim_C8_amended (st : IdState) (data : List Nat) (st' : IdState)
    (hb : st.bytes.length = 8) (hs : st.seen_len ≤ 8) (hd : data.length ≤ 8)
    (hne : data ≠ []) (h : ingest_for_calibration st data = some st') :
    st'.fully_disqualified = true ↔
      ∀ i bs, i < st'.seen_len → st'.bytes[i]? = some bs → bs.disqualified = true := by
  obtain ⟨st2, h2, -, -, -, hiff⟩ := ingest_char st data hb hs hd hne
  rw [h] at h2
  rw [Option.some_inj.mp h2]
  exact hiff

/-- Claim C8, witness: the amended claim evaluated on a fresh model
ingesting the single-byte payload `[0]` (the flag stays `false` and
indeed byte 0 is not disqualified). -/
theorem claim_C8_witness :
    ingest_for_calibration (freshId 9) [0] = some stSeed0 ∧
    (stSeed0.fully_disqualified = true ↔
      ∀ i bs, i < stSeed0.seen_len → stSeed0.bytes[i]? = some bs →
        bs.disqualified = true) :=
  ⟨by decide, claim_C8_amended (freshId 9) [0] stSeed0 (by decide) (by decide)
    (by decide) (by decide) (by decide)⟩

/-- Claim C9 (confirmed).  On a model whose width fits its byte-state
list, a monitoring diff satisfies the full §4.3 contract (`DiffSpec`:
exactly one sliding change record per qualifying index below the width,
nothing else reported or touched), and monitoring skips addresses with
no model or a fully disqualified model (`MonitorSkipSpec`). -/
theorem claim_C9_theorem (st : IdState) (data : List Nat)
    (h : st.seen_len ≤ st.bytes.length) :
    DiffSpec st data ∧ MonitorSkipSpec :=
  ⟨diff_spec_of_fits st data h, monitorSkip_holds⟩

/-- Claim C9, witness: Scenario C — a model calibrated to `01 02 03 04`
monitored against `01 02 03 09`. -/
theorem claim_C9_witness :
    stScenC.seen_len ≤ stScenC.bytes.length ∧ DiffSpec stScenC [1, 2, 3, 9] ∧
      MonitorSkipSpec :=
  ⟨by decide, (claim_C9_theorem stScenC [1, 2, 3, 9] (by decide)).1,
    (claim_C9_theorem stScenC [1, 2, 3, 9] (by decide)).2⟩

/-- Claim C10 (confirmed).  Calibration ingestion is idempotent: the
state reached by ingesting a payload is a fixed point of a second
ingestion of the same payload — width, stored values, per-index flags
and `fully_disqualified` all unchanged. -/
theorem claim_C10_theorem (st : IdState) (d : List Nat) (st1 : IdState)
    (h : ingest_for_calibration st d = some st1) :
    ingest_for_calibration st1 d = some st1 :=
  ingest_idem st d st1 h

/-- Claim C10, witness: ingesting `[1, 2]` into a fresh model and then
ingesting it again. -/
theorem claim_C10_witness :
    ingest_for_calibration (freshId 7) [1, 2] = some stTwo ∧
    ingest_for_calibration stTwo [1, 2] = some stTwo :=
  ⟨by decide, claim_C10_theorem (freshId 7) [1, 2] stTwo (by decide)⟩

end CanDump
